import Mathlib

/-!
# A sequential model of the buffered-channel pool (`channel.go`)

The pool keeps its idle connections in a buffered Go channel.  The model below
is a shallow embedding of `channel.go` for one thread of control:

* a channel is its capacity, its buffered values in arrival order and its
  closed flag;
* an operation that cannot proceed (a receive on an open empty channel, a send
  on a full channel outside a `select` with `default`) has the result `block`;
* a run-time panic (`close` of a closed channel, a send on a closed channel,
  `make` with a size out of range, a call through a nil func) has the result
  `panic`;
* the factory is an external callback; the number of invocations made so far
  is threaded through every operation as `calls`.

The field `mu` of `channelPool` is never locked in `channel.go` and has no
counterpart here.
-/

namespace Pool

/-- Go `error` values that occur in `channel.go`: the package sentinel
`ErrClosed` and the values made by `errors.New` and `fmt.Errorf`. -/
inductive Error where
  | ErrClosed
  | New (msg : String)
  deriving DecidableEq, Repr

/-- Modelled from the spec: the text of `ErrClosed`, a package variable that
`channel.go` uses and that is declared in a file outside `src/` (the spec calls
it the "pool closed" error).  The text is used when an error is formatted with
`%s`. -/
def Error.text : Error → String
  | .ErrClosed => "pool closed"
  | .New msg => msg

/-- The type `GenericConn` is `interface{}`: `none` is the nil interface value,
`some k` a non-nil value whose identity is `k`. -/
abbrev GenericConn := Option Nat

/-- The type `Factory` is `func() (GenericConn, error)`.  The callback may keep
state of its own, so its result is a function of the number of invocations
that came before. -/
abbrev Factory := Nat → GenericConn × Option Error

/-- A non-nil `chan GenericConn`. -/
structure Chan where
  cap : Nat
  buf : List GenericConn
  closed : Bool
  deriving DecidableEq, Repr

/-- The struct `channelPool`; a nil `conns` and a nil `factory` are `none`. -/
structure channelPool where
  conns : Option Chan
  factory : Option Factory

/-- How a call ends: it returns a value, it blocks for ever, or it panics. -/
inductive Outcome (α : Type) where
  | ret (v : α)
  | block
  | panic
  deriving DecidableEq, Repr

/-- The result of a method call on a pool: how the call ended, the pool at
that point and the number of factory invocations made up to that point. -/
structure Step (α : Type) where
  out : Outcome α
  pool : channelPool
  calls : Nat

/-- The Go runtime constant `maxAlloc` on 64-bit Linux: no allocation is larger
than `2 ^ 48` bytes. -/
def maxAlloc : Nat := 2 ^ 48

/-- The Go runtime constant `hchanSize` on a 64-bit platform: the size in bytes
of the header of a channel. -/
def hchanSize : Nat := 96

/-- The size in bytes of a `GenericConn`, an interface value of two words, on a
64-bit platform. -/
def elemSize : Nat := 16

/-- The expression `make(chan GenericConn, n)`.  The runtime panics with
"makechan: size out of range" when `n` is negative or when the buffer of `n`
elements does not fit in `maxAlloc - hchanSize` bytes. -/
def makeChan (n : Int) : Outcome Chan :=
  if n < 0 ∨ maxAlloc - hchanSize < elemSize * n.toNat then .panic
  else .ret { cap := n.toNat, buf := [], closed := false }

/-- The statement `ch <- v` outside a `select`. -/
def chanSend (ch : Chan) (v : GenericConn) : Outcome Chan :=
  if ch.closed then .panic
  else if ch.buf.length < ch.cap then .ret { ch with buf := ch.buf ++ [v] }
  else .block

/-- The statement `select { case ch <- v: ... default: ... }`: the flag tells
whether the send case ran. -/
def chanTrySend (ch : Chan) (v : GenericConn) : Outcome (Bool × Chan) :=
  if ch.closed then .panic
  else if ch.buf.length < ch.cap then .ret (true, { ch with buf := ch.buf ++ [v] })
  else .ret (false, ch)

/-- The expression `v, ok := <-ch`: buffered values come first, also on a
closed channel; a closed empty channel yields the zero value and `false`. -/
def chanRecv (ch : Chan) : Outcome ((GenericConn × Bool) × Chan) :=
  match ch.buf with
  | v :: rest => .ret ((v, true), { ch with buf := rest })
  | [] => if ch.closed then .ret ((none, false), ch) else .block

/-- The statement `close(ch)`: panics on a closed channel. -/
def chanClose (ch : Chan) : Outcome Chan :=
  if ch.closed then .panic else .ret { ch with closed := true }

/-- The expression `len(c.conns)`, which is 0 for a nil channel. -/
def chanLen : Option Chan → Nat
  | none => 0
  | some ch => ch.buf.length

/-- The result of `NewChannelPool`: how the call ended (the returned pair of
pool and error) and the number of factory invocations made so far. -/
structure NewResult where
  out : Outcome (Option channelPool × Option Error)
  calls : Nat

/-- The loop `for i := 0; i < maxCap; i++` of `NewChannelPool`, with
`remaining = maxCap - i` iterations to go.  It ends with the filled channel or
with the error that `NewChannelPool` returns. -/
def NewChannelPool.fill (factory : Option Factory) :
    Nat → Chan → Nat → Outcome (Except Error Chan) × Nat
  | 0, ch, calls => (.ret (.ok ch), calls)
  | remaining + 1, ch, calls =>
    match factory with
    | none => (.panic, calls)
    | some f =>
      match f calls with
      | (_, some err) =>
        (.ret (.error (.New ("factory is not able to fill the pool: " ++ err.text))), calls + 1)
      | (conn, none) =>
        match chanSend ch conn with
        | .ret ch' => NewChannelPool.fill factory remaining ch' (calls + 1)
        | .block => (.block, calls + 1)
        | .panic => (.panic, calls + 1)

/-- The function `NewChannelPool(maxCap int, factory Factory) (Pool, error)`. -/
def NewChannelPool (maxCap : Int) (factory : Option Factory) (calls : Nat) : NewResult :=
  match makeChan maxCap with
  | .panic => { out := .panic, calls := calls }
  | .block => { out := .block, calls := calls }
  | .ret ch =>
    match NewChannelPool.fill factory maxCap.toNat ch calls with
    | (.ret (.ok ch'), calls') =>
      { out := .ret (some { conns := some ch', factory := factory }, none), calls := calls' }
    | (.ret (.error e), calls') => { out := .ret (none, some e), calls := calls' }
    | (.block, calls') => { out := .block, calls := calls' }
    | (.panic, calls') => { out := .panic, calls := calls' }

/-- The method `Get() (GenericConn, error)`. -/
def channelPool.Get (c : channelPool) (calls : Nat) : Step (GenericConn × Option Error) :=
  match c.conns with
  | none => { out := .ret (none, some .ErrClosed), pool := c, calls := calls }
  | some ch =>
    match chanRecv ch with
    | .ret ((conn, _), ch') =>
      let c' : channelPool := { c with conns := some ch' }
      if conn = none then { out := .ret (none, some .ErrClosed), pool := c', calls := calls }
      else { out := .ret (conn, none), pool := c', calls := calls }
    | .block => { out := .block, pool := c, calls := calls }
    | .panic => { out := .panic, pool := c, calls := calls }

/-- The method `Put(conn GenericConn) error`. -/
def channelPool.Put (c : channelPool) (conn : GenericConn) (calls : Nat) : Step (Option Error) :=
  if conn = none then
    { out := .ret (some (.New "connection is nil. rejecting")), pool := c, calls := calls }
  else
    match c.conns with
    | none => { out := .ret none, pool := c, calls := calls }
    | some ch =>
      match chanTrySend ch conn with
      | .ret (true, ch') => { out := .ret none, pool := { c with conns := some ch' }, calls := calls }
      | .ret (false, ch') => { out := .ret none, pool := { c with conns := some ch' }, calls := calls }
      | .block => { out := .block, pool := c, calls := calls }
      | .panic => { out := .panic, pool := c, calls := calls }

/-- The method `Len() int`. -/
def channelPool.Len (c : channelPool) : Nat := chanLen c.conns

/-- The guarded block of `Close`: one receive, and `close` when the receive
reports a closed channel. -/
def channelPool.Close.drain (ch : Chan) : Outcome Chan :=
  if 0 < ch.buf.length then
    match chanRecv ch with
    | .ret ((_, isPoolOpen), ch') => if !isPoolOpen then chanClose ch' else .ret ch'
    | .block => .block
    | .panic => .panic
  else .ret ch

/-- The result of `Close`: that of a method call, and with it the channel
object that `c.conns` referred to when `Close` was called, in the state in
which `Close` leaves it (`none` when `c.conns` was nil).  The pool drops its
reference to that object; the object itself is what other holders of the
channel go on seeing. -/
structure CloseStep extends Step Unit where
  chan : Option Chan

/-- The method `Close()`. -/
def channelPool.Close (c : channelPool) (calls : Nat) : CloseStep :=
  match c.conns with
  | none =>
    { out := .ret (), pool := { conns := none, factory := none }, calls := calls, chan := none }
  | some ch =>
    match channelPool.Close.drain ch with
    | .ret ch' =>
      { out := .ret (), pool := { conns := none, factory := none }, calls := calls,
        chan := some ch' }
    | .block => { out := .block, pool := c, calls := calls, chan := some ch }
    | .panic => { out := .panic, pool := c, calls := calls, chan := some ch }

/-- The package variable `factory` of `channel_test.go`: every invocation
returns a fresh `*http.Client` and a nil error. -/
def Test.factory : Factory := fun k => (some k, none)

/-- A factory whose third invocation (index 2) fails. -/
def Test.failingFactory : Factory := fun k =>
  if k = 2 then (none, some (.New "dial tcp: connection refused")) else (some k, none)

/-- A factory that returns a nil value together with a nil error. -/
def Test.nilFactory : Factory := fun _ => (none, none)

/-- The values that `n` successful factory invocations starting at invocation
`calls` hand to the pool, in order. -/
def produced (f : Factory) (calls n : Nat) : List GenericConn :=
  (List.range n).map fun k => (f (calls + k)).1

/-! ## Sequences of calls -/

/-- The function `f` applied to the value that a call returned. -/
def Step.map {α β : Type} (f : α → β) (s : Step α) : Step β :=
  { out := match s.out with
      | .ret v => .ret (f v)
      | .block => .block
      | .panic => .panic,
    pool := s.pool, calls := s.calls }

/-- A call of one of the four methods of a pool. -/
inductive Call where
  | Get
  | Put (conn : GenericConn)
  | Len
  | Close
  deriving DecidableEq, Repr

/-- What a call of a method returned. -/
inductive Reply where
  | Get (conn : GenericConn) (err : Option Error)
  | Put (err : Option Error)
  | Len (n : Nat)
  | Close
  deriving DecidableEq, Repr

/-- One method call on the pool. -/
def channelPool.call (c : channelPool) (calls : Nat) : Call → Step Reply
  | .Get => (c.Get calls).map fun r => .Get r.1 r.2
  | .Put conn => (c.Put conn calls).map .Put
  | .Len => { out := .ret (.Len c.Len), pool := c, calls := calls }
  | .Close => (c.Close calls).toStep.map fun _ => .Close

/-- A sequence of method calls made one after the other by one thread of
control; it ends at the first call that blocks or panics, with the pool as it
is at that point. -/
def channelPool.run (c : channelPool) (calls : Nat) : List Call → Step (List Reply)
  | [] => { out := .ret [], pool := c, calls := calls }
  | op :: ops =>
    match (c.call calls op).out with
    | .ret r =>
      (channelPool.run (c.call calls op).pool (c.call calls op).calls ops).map fun rs => r :: rs
    | .block => { out := .block, pool := (c.call calls op).pool, calls := (c.call calls op).calls }
    | .panic => { out := .panic, pool := (c.call calls op).pool, calls := (c.call calls op).calls }

/-- The capacity bound on a pool: an open pool has a channel of capacity `C`
that buffers at most `C` values. -/
def channelPool.WithinCap (C : Nat) (c : channelPool) : Prop :=
  ∀ ch, c.conns = some ch → ch.cap = C ∧ ch.buf.length ≤ C

/-- A caller of the pool together with the resources it holds: those that
`Get` handed to it and that it has not put back. -/
structure Caller where
  pool : channelPool
  calls : Nat
  held : List GenericConn

/-- The moves of a caller that takes resources and puts them back. -/
inductive Move where
  | Get
  | Put (conn : GenericConn)
  deriving DecidableEq, Repr

/-- One completed move of a caller: a `Get` that returned (the resource is held
from then on when the error is nil), or a `Put` of a resource that the caller
holds (it is no longer held once `Put` returned nil).  The result is `none`
when the call does not return or the resource put is not one the caller
holds. -/
def Caller.step (s : Caller) : Move → Option Caller
  | .Get =>
    match (s.pool.Get s.calls).out with
    | .ret (conn, none) =>
      some { pool := (s.pool.Get s.calls).pool, calls := (s.pool.Get s.calls).calls,
             held := conn :: s.held }
    | .ret (_, some _) =>
      some { pool := (s.pool.Get s.calls).pool, calls := (s.pool.Get s.calls).calls,
             held := s.held }
    | .block => none
    | .panic => none
  | .Put conn =>
    if conn ∈ s.held then
      match (s.pool.Put conn s.calls).out with
      | .ret none =>
        some { pool := (s.pool.Put conn s.calls).pool, calls := (s.pool.Put conn s.calls).calls,
               held := s.held.erase conn }
      | .ret (some _) =>
        some { pool := (s.pool.Put conn s.calls).pool, calls := (s.pool.Put conn s.calls).calls,
               held := s.held }
      | .block => none
      | .panic => none
    else none

/-- A finite sequence of completed moves. -/
def Caller.run (s : Caller) : List Move → Option Caller
  | [] => some s
  | m :: ms =>
    match s.step m with
    | some s' => Caller.run s' ms
    | none => none

/-- The accounting of `n` resources between an open pool and its caller: the
channel has capacity `n`, every resource (a non-nil value) is either idle in
the channel or held by the caller, and there are `n` of them in all. -/
def Caller.Conserved (n : Nat) (s : Caller) : Prop :=
  ∃ ch, s.pool.conns = some ch ∧ ch.closed = false ∧ ch.cap = n
    ∧ ch.buf.length + s.held.length = n
    ∧ (∀ x ∈ ch.buf, x ≠ none) ∧ (∀ x ∈ s.held, x ≠ none)

/-- The idle resources of an open pool followed by the resources its caller
holds: no value occurs twice. -/
def Caller.Exclusive (s : Caller) : Prop :=
  ∃ ch, s.pool.conns = some ch ∧ (ch.buf ++ s.held).Nodup

/-! ## The wrapper of `pooled_http_client.go` -/

/-- The closure that `connFetcher(p)` returns, called once.  The result is the
client handed to the caller and the pool at the moment the closure returns.
`defer p.Put(res)` runs when the closure returns, after the return value
`res.(*http.Client)` has been evaluated; the values of the pool are taken to be
`*http.Client`s, so the type assertion succeeds on a non-nil value. -/
def connFetcher (p : channelPool) (calls : Nat) : Step GenericConn :=
  match (p.Get calls).out with
  | .ret (_, some _) => { out := .panic, pool := (p.Get calls).pool, calls := (p.Get calls).calls }
  | .ret (res, none) =>
    ((p.Get calls).pool.Put res (p.Get calls).calls).map fun _ => res
  | .block => { out := .block, pool := (p.Get calls).pool, calls := (p.Get calls).calls }
  | .panic => { out := .panic, pool := (p.Get calls).pool, calls := (p.Get calls).calls }

/-- The struct `PooledHttpClient`, without the embedded `http.Client`, which
none of its methods uses. -/
structure PooledHttpClient where
  connPool : channelPool

/-- The methods `Get`, `Post` and `Do` of `PooledHttpClient` up to the point
where the HTTP call on `conn` starts: `conn := connFetcher(c.connPool)()`.  The
result is `conn` and the pool at the moment `conn.Get`, `conn.Post` or
`conn.Do` is invoked. -/
def PooledHttpClient.Do (c : PooledHttpClient) (calls : Nat) : Step GenericConn :=
  connFetcher c.connPool calls

/-! ## The initial fill -/

theorem produced_length (f : Factory) (calls n : Nat) : (produced f calls n).length = n := by
  simp [produced]

theorem produced_succ (f : Factory) (calls n : Nat) :
    produced f calls (n + 1) = (f calls).1 :: produced f (calls + 1) n := by
  simp only [produced, List.range_succ_eq_map, List.map_cons, List.map_map, Nat.add_zero]
  congr 1
  apply List.map_congr_left
  intro k _
  simp only [Function.comp_apply]
  congr 2
  omega

/-- When no invocation fails and the channel has room, the loop sends every
produced value and invokes the factory once per iteration. -/
theorem fill_ok (f : Factory) :
    ∀ (n : Nat) (ch : Chan) (calls : Nat), ch.closed = false → ch.buf.length + n ≤ ch.cap →
      (∀ k, k < n → (f (calls + k)).2 = none) →
      NewChannelPool.fill (some f) n ch calls
        = (.ret (.ok { ch with buf := ch.buf ++ produced f calls n }), calls + n) := by
  intro n
  induction n with
  | zero => intro ch calls _ _ _; simp [NewChannelPool.fill, produced]
  | succ n ih =>
    intro ch calls hopen hroom hok
    have h0 : (f calls).2 = none := by simpa using hok 0 (Nat.succ_pos n)
    rcases hfc : f calls with ⟨conn, e⟩
    rw [hfc] at h0
    simp only at h0
    subst h0
    have hlt : ch.buf.length < ch.cap := by omega
    have hsend : chanSend ch conn = .ret { ch with buf := ch.buf ++ [conn] } := by
      simp [chanSend, hopen, hlt]
    rw [NewChannelPool.fill]
    simp only [hfc, hsend]
    rw [ih { ch with buf := ch.buf ++ [conn] } (calls + 1) hopen (by simp; omega)
      (fun k hk => by have := hok (k + 1) (by omega); rwa [show calls + 1 + k = calls + (k + 1) by omega])]
    rw [produced_succ, hfc]
    simp [Nat.add_assoc, Nat.add_comm 1 n]

/-- When invocation `j` of the loop is the first to fail, the loop ends there
with the wrapped error, after `j + 1` invocations. -/
theorem fill_fail (f : Factory) :
    ∀ (j n : Nat) (ch : Chan) (calls : Nat) (err : Error), ch.closed = false →
      ch.buf.length + n ≤ ch.cap → j < n →
      (∀ k, k < j → (f (calls + k)).2 = none) → (f (calls + j)).2 = some err →
      NewChannelPool.fill (some f) n ch calls
        = (.ret (.error (.New ("factory is not able to fill the pool: " ++ err.text))),
            calls + j + 1) := by
  intro j
  induction j with
  | zero =>
    intro n ch calls err _ _ hjn _ hfail
    obtain ⟨m, rfl⟩ : ∃ m, n = m + 1 := ⟨n - 1, by omega⟩
    rcases hfc : f calls with ⟨conn, e⟩
    simp only [Nat.add_zero, hfc] at hfail
    subst hfail
    rw [NewChannelPool.fill]
    simp only [hfc]
  | succ j ih =>
    intro n ch calls err hopen hroom hjn hok hfail
    obtain ⟨m, rfl⟩ : ∃ m, n = m + 1 := ⟨n - 1, by omega⟩
    have h0 : (f calls).2 = none := by simpa using hok 0 (Nat.succ_pos j)
    rcases hfc : f calls with ⟨conn, e⟩
    rw [hfc] at h0
    simp only at h0
    subst h0
    have hlt : ch.buf.length < ch.cap := by omega
    have hsend : chanSend ch conn = .ret { ch with buf := ch.buf ++ [conn] } := by
      simp [chanSend, hopen, hlt]
    rw [NewChannelPool.fill]
    simp only [hfc, hsend]
    rw [ih m { ch with buf := ch.buf ++ [conn] } (calls + 1) err hopen (by simp; omega) (by omega)
      (fun k hk => by have := hok (k + 1) (by omega); rwa [show calls + 1 + k = calls + (k + 1) by omega])
      (by rwa [show calls + 1 + j = calls + (j + 1) by omega])]
    simp [Nat.add_assoc, Nat.add_comm 1 j]

/-- The pool that `NewChannelPool` returns when none of its `n` factory
invocations fails: the channel of capacity `n`, filled to capacity. -/
theorem NewChannelPool_ok (n : Nat) (f : Factory) (calls : Nat)
    (hsize : elemSize * n ≤ maxAlloc - hchanSize)
    (hok : ∀ k, k < n → (f (calls + k)).2 = none) :
    NewChannelPool (n : Int) (some f) calls
      = { out := .ret (some { conns := some ⟨n, produced f calls n, false⟩, factory := some f },
            none),
          calls := calls + n } := by
  have hfill := fill_ok f n ⟨n, [], false⟩ calls rfl (by simp) hok
  simp only [List.nil_append] at hfill
  have hneg : ¬ ((n : Int) < 0 ∨ maxAlloc - hchanSize < elemSize * n) := by omega
  simp only [NewChannelPool, makeChan, Int.toNat_ofNat, if_neg hneg, hfill]

/-- The result of `NewChannelPool` when invocation `j` is the first to fail. -/
theorem NewChannelPool_fail (n j : Nat) (f : Factory) (calls : Nat) (err : Error)
    (hsize : elemSize * n ≤ maxAlloc - hchanSize) (hj : j < n)
    (hok : ∀ k, k < j → (f (calls + k)).2 = none) (hfail : (f (calls + j)).2 = some err) :
    NewChannelPool (n : Int) (some f) calls
      = { out := .ret (none, some (.New ("factory is not able to fill the pool: " ++ err.text))),
          calls := calls + j + 1 } := by
  have hfill := fill_fail f j n ⟨n, [], false⟩ calls err rfl (by simp) hj hok hfail
  have hneg : ¬ ((n : Int) < 0 ∨ maxAlloc - hchanSize < elemSize * n) := by omega
  simp only [NewChannelPool, makeChan, Int.toNat_ofNat, if_neg hneg, hfill]

/-! ## Creation -/

/-- C1 (the code departs from it): `NewChannelPool` has no initial count; with
maximum capacity 30 and the never-failing factory of the tests it returns a
pool whose `Len()` is 30, not the initial count 5 that `TestPool_UsedCapacity`
expects. -/
theorem NewChannelPool_test_len_is_maxCap :
    ∃ p : channelPool, (NewChannelPool 30 (some Test.factory) 0).out = .ret (some p, none)
      ∧ p.Len = 30 ∧ p.Len ≠ 5 := by
  have h := NewChannelPool_ok 30 Test.factory 0 (by decide) (fun _ _ => rfl)
  refine ⟨_, congrArg NewResult.out h, ?_, ?_⟩ <;>
    simp [channelPool.Len, chanLen, produced_length]

/-- C2 (refuted as stated): for maximum capacity `2 ^ 44`, which is not negative,
`make` panics because the buffer is out of range.  No factory invocation is
made, so none fails, and yet `NewChannelPool` returns neither a pool nor an
error. -/
theorem NewChannelPool_panics_on_large_maxCap :
    (0 : Int) ≤ 17592186044416
      ∧ (NewChannelPool 17592186044416 (some Test.factory) 0).out = .panic
      ∧ (NewChannelPool 17592186044416 (some Test.factory) 0).calls = 0
      ∧ ¬ ∃ p : channelPool,
          (NewChannelPool 17592186044416 (some Test.factory) 0).out = .ret (some p, none) := by
  have hpanic : makeChan 17592186044416 = .panic := by
    simp only [makeChan]
    rw [if_pos (Or.inr (by decide))]
  have h : NewChannelPool 17592186044416 (some Test.factory) 0 = { out := .panic, calls := 0 } := by
    simp only [NewChannelPool, hpanic]
  rw [h]
  exact ⟨by decide, rfl, rfl, fun ⟨_, hp⟩ => by cases hp⟩

/-- C2 (amended): for a maximum capacity that `make` accepts (not negative, the
buffer within `maxAlloc - hchanSize` bytes), when some factory invocation of
the initial fill returns an error, the first such invocation ends
`NewChannelPool` with a nil pool and a non-nil error (the wrapped factory
error) and is the last invocation made; when no invocation returns an error,
`NewChannelPool` returns a non-nil pool and a nil error. -/
theorem NewChannelPool_error_or_pool (maxCap : Int) (hcap : 0 ≤ maxCap)
    (hsize : elemSize * maxCap.toNat ≤ maxAlloc - hchanSize) (f : Factory) (calls : Nat) :
    (∀ (j : Nat) (err : Error), j < maxCap.toNat →
        (∀ k, k < j → (f (calls + k)).2 = none) → (f (calls + j)).2 = some err →
        (NewChannelPool maxCap (some f) calls).out
            = .ret (none, some (.New ("factory is not able to fill the pool: " ++ err.text)))
          ∧ (NewChannelPool maxCap (some f) calls).calls = calls + j + 1)
    ∧ ((∀ k, k < maxCap.toNat → (f (calls + k)).2 = none) →
        ∃ p : channelPool, (NewChannelPool maxCap (some f) calls).out = .ret (some p, none)
          ∧ (NewChannelPool maxCap (some f) calls).calls = calls + maxCap.toNat) := by
  obtain ⟨n, rfl⟩ := Int.eq_ofNat_of_zero_le hcap
  simp only [Int.toNat_ofNat] at hsize ⊢
  constructor
  · intro j err hj hok hfail
    rw [NewChannelPool_fail n j f calls err hsize hj hok hfail]
    exact ⟨rfl, rfl⟩
  · intro hok
    rw [NewChannelPool_ok n f calls hsize hok]
    exact ⟨_, rfl, rfl⟩

/-- C2 (amended), at maximum capacity 5: the factory that fails at its third
invocation gives a nil pool, the wrapped error and exactly three invocations;
the factory of the tests gives a pool, a nil error and five invocations. -/
theorem NewChannelPool_error_or_pool_witness :
    ((NewChannelPool 5 (some Test.failingFactory) 0).out
        = .ret (none, some (.New
            ("factory is not able to fill the pool: " ++ "dial tcp: connection refused")))
      ∧ (NewChannelPool 5 (some Test.failingFactory) 0).calls = 0 + 2 + 1)
    ∧ ∃ p : channelPool, (NewChannelPool 5 (some Test.factory) 0).out = .ret (some p, none)
        ∧ (NewChannelPool 5 (some Test.factory) 0).calls = 0 + (5 : Int).toNat :=
  ⟨(NewChannelPool_error_or_pool 5 (by decide) (by decide) Test.failingFactory 0).1 2
      (.New "dial tcp: connection refused") (by decide) (by decide) rfl,
    (NewChannelPool_error_or_pool 5 (by decide) (by decide) Test.factory 0).2 (fun _ _ => rfl)⟩

/-! ## Get -/

/-- The effect of `Get` on a pool whose channel has a non-nil value in front. -/
theorem Get_cons (c : channelPool) (ch : Chan) (r : GenericConn) (rest : List GenericConn)
    (calls : Nat) (hc : c.conns = some ch) (hbuf : ch.buf = r :: rest) (hr : r ≠ none) :
    c.Get calls
      = { out := .ret (r, none), pool := { c with conns := some { ch with buf := rest } },
          calls := calls } := by
  simp [channelPool.Get, hc, chanRecv, hbuf, hr]

/-- C3: on an open pool whose idle storage holds `n ≥ 1` resources (non-nil
values), `Get` returns a nil error and the resource at the front of idle
storage, a member of it before the call; afterwards idle storage is what it
was without that front occurrence, `Len()` is `n - 1`, and neither the factory
field nor the invocation count has changed. -/
theorem Get_takes_idle_resource (c : channelPool) (ch : Chan) (calls n : Nat)
    (hc : c.conns = some ch) (hn : ch.buf.length = n) (hpos : 1 ≤ n)
    (hres : ∀ x ∈ ch.buf, x ≠ none) :
    ∃ (r : GenericConn) (rest : List GenericConn),
      ch.buf = r :: rest ∧ r ∈ ch.buf ∧ r ≠ none
        ∧ (c.Get calls).out = .ret (r, none)
        ∧ (c.Get calls).pool.conns = some { ch with buf := rest }
        ∧ (c.Get calls).pool.Len = n - 1
        ∧ (c.Get calls).pool.factory = c.factory
        ∧ (c.Get calls).calls = calls := by
  rcases hbuf : ch.buf with _ | ⟨r, rest⟩
  · rw [hbuf] at hn; simp at hn; omega
  · have hr : r ≠ none := hres r (by rw [hbuf]; exact List.mem_cons_self r rest)
    rw [Get_cons c ch r rest calls hc hbuf hr]
    refine ⟨r, rest, rfl, List.mem_cons_self r rest, hr, rfl, rfl, ?_, rfl, rfl⟩
    rw [hbuf] at hn
    simp only [List.length_cons] at hn
    simp [channelPool.Len, chanLen]
    omega

/-- C3, on the pool of the tests after creation with five resources: `Get`
returns the first of them and leaves four. -/
theorem Get_takes_idle_resource_witness :
    ∃ (r : GenericConn) (rest : List GenericConn),
      [some 0, some 1, some 2, some 3, some 4] = r :: rest
        ∧ r ∈ [some 0, some 1, some 2, some 3, some 4] ∧ r ≠ none
        ∧ (channelPool.Get ⟨some ⟨30, [some 0, some 1, some 2, some 3, some 4], false⟩,
              some Test.factory⟩ 5).out = .ret (r, none)
        ∧ (channelPool.Get ⟨some ⟨30, [some 0, some 1, some 2, some 3, some 4], false⟩,
              some Test.factory⟩ 5).pool.conns
            = some { (⟨30, [some 0, some 1, some 2, some 3, some 4], false⟩ : Chan) with
                buf := rest }
        ∧ (channelPool.Get ⟨some ⟨30, [some 0, some 1, some 2, some 3, some 4], false⟩,
              some Test.factory⟩ 5).pool.Len = 5 - 1
        ∧ (channelPool.Get ⟨some ⟨30, [some 0, some 1, some 2, some 3, some 4], false⟩,
              some Test.factory⟩ 5).pool.factory = some Test.factory
        ∧ (channelPool.Get ⟨some ⟨30, [some 0, some 1, some 2, some 3, some 4], false⟩,
              some Test.factory⟩ 5).calls = 5 :=
  Get_takes_idle_resource
    ⟨some ⟨30, [some 0, some 1, some 2, some 3, some 4], false⟩, some Test.factory⟩
    ⟨30, [some 0, some 1, some 2, some 3, some 4], false⟩ 5 5 rfl rfl (by decide) (by decide)

/-- C4: on an open pool whose idle storage is empty, `Get` does not return: it
blocks, yielding neither a resource nor an error, with the pool and the number
of factory invocations as they were. -/
theorem Get_blocks_when_empty (c : channelPool) (ch : Chan) (calls : Nat)
    (hc : c.conns = some ch) (hopen : ch.closed = false) (hempty : ch.buf = []) :
    c.Get calls = { out := .block, pool := c, calls := calls } := by
  simp [channelPool.Get, hc, chanRecv, hempty, hopen]

/-- C4, on an open pool of capacity 30 with nothing idle. -/
theorem Get_blocks_when_empty_witness :
    channelPool.Get ⟨some ⟨30, [], false⟩, some Test.factory⟩ 30
      = { out := .block, pool := ⟨some ⟨30, [], false⟩, some Test.factory⟩, calls := 30 } :=
  Get_blocks_when_empty ⟨some ⟨30, [], false⟩, some Test.factory⟩ ⟨30, [], false⟩ 30 rfl rfl rfl

/-- C5 (the code departs from it): on the pool that `NewChannelPool` returns for
maximum capacity 0, which is open and has no idle resource, `Get` blocks
without invoking the factory; the doc comments of `Get` and `NewChannelPool`
and `TestPool_Put` expect a resource made by the factory and a nil error. -/
theorem Get_on_empty_new_pool_blocks :
    ∃ p : channelPool, NewChannelPool 0 (some Test.factory) 0 = ⟨.ret (some p, none), 0⟩
      ∧ p.conns = some ⟨0, [], false⟩
      ∧ (p.Get 0).out = .block ∧ (∀ r, (p.Get 0).out ≠ .ret (r, none))
      ∧ (p.Get 0).calls = 0 := by
  refine ⟨⟨some ⟨0, [], false⟩, some Test.factory⟩, rfl, rfl, rfl, ?_, rfl⟩
  intro r h
  simp [channelPool.Get, chanRecv] at h

/-! ## Put -/

/-- The effect of `Put` of a non-nil value on an open channel with room. -/
theorem Put_room (c : channelPool) (ch : Chan) (r : GenericConn) (calls : Nat)
    (hc : c.conns = some ch) (hopen : ch.closed = false) (hr : r ≠ none)
    (hroom : ch.buf.length < ch.cap) :
    c.Put r calls
      = { out := .ret none, pool := { c with conns := some { ch with buf := ch.buf ++ [r] } },
          calls := calls } := by
  simp [channelPool.Put, hc, chanTrySend, hopen, hr, hroom]

/-- The effect of `Put` of a non-nil value on an open channel without room. -/
theorem Put_full (c : channelPool) (ch : Chan) (r : GenericConn) (calls : Nat)
    (hc : c.conns = some ch) (hopen : ch.closed = false) (hr : r ≠ none)
    (hfull : ¬ ch.buf.length < ch.cap) :
    c.Put r calls = { out := .ret none, pool := c, calls := calls } := by
  obtain ⟨conns, factory⟩ := c
  simp only at hc
  subst hc
  simp [channelPool.Put, chanTrySend, hopen, hr, hfull]

/-- C6: in every pool state, `Put(nil)` returns the non-nil error
"connection is nil. rejecting" and leaves the pool (idle storage, closed state,
factory) and the number of factory invocations unchanged. -/
theorem Put_nil_rejected (c : channelPool) (calls : Nat) :
    c.Put none calls
        = { out := .ret (some (.New "connection is nil. rejecting")), pool := c, calls := calls }
      ∧ ∃ e, (c.Put none calls).out = .ret (some e) := by
  exact ⟨by simp [channelPool.Put], .New "connection is nil. rejecting",
    by simp [channelPool.Put]⟩

/-- C7: on a closed pool, `Put` of a non-nil resource returns nil and changes
nothing: the pool stays closed and `Len()` is 0. -/
theorem Put_closed_noop (c : channelPool) (r : GenericConn) (calls : Nat)
    (hc : c.conns = none) (hr : r ≠ none) :
    c.Put r calls = { out := .ret none, pool := c, calls := calls }
      ∧ (c.Put r calls).pool.conns = none ∧ (c.Put r calls).pool.Len = 0 := by
  have h : c.Put r calls = { out := .ret none, pool := c, calls := calls } := by
    simp [channelPool.Put, hc, hr]
  rw [h]
  exact ⟨rfl, hc, by simp [channelPool.Len, chanLen, hc]⟩

/-- C7, on the scenario of `TestPool_Put`: one resource taken from a full pool
of three, the pool closed, the resource put back. -/
theorem Put_closed_noop_witness :
    channelPool.Put
        (channelPool.Close
          (channelPool.Get ⟨some ⟨3, [some 0, some 1, some 2], false⟩, some Test.factory⟩ 3).pool
          3).pool
        (some 0) 3
      = { out := .ret none,
          pool := (channelPool.Close
            (channelPool.Get ⟨some ⟨3, [some 0, some 1, some 2], false⟩,
              some Test.factory⟩ 3).pool 3).pool,
          calls := 3 }
      ∧ (channelPool.Put
          (channelPool.Close
            (channelPool.Get ⟨some ⟨3, [some 0, some 1, some 2], false⟩,
              some Test.factory⟩ 3).pool 3).pool
          (some 0) 3).pool.conns = none
      ∧ (channelPool.Put
          (channelPool.Close
            (channelPool.Get ⟨some ⟨3, [some 0, some 1, some 2], false⟩,
              some Test.factory⟩ 3).pool 3).pool
          (some 0) 3).pool.Len = 0 :=
  Put_closed_noop _ (some 0) 3 rfl (by decide)

/-- C8: on an open pool and for a non-nil resource `r`, when idle storage
already holds as many resources as the maximum capacity, `Put(r)` returns nil
without blocking and leaves the pool exactly as it was; when it holds fewer,
`Put(r)` returns nil, appends `r` to idle storage and `Len()` grows by one. -/
theorem Put_full_or_room (c : channelPool) (ch : Chan) (r : GenericConn) (calls : Nat)
    (hc : c.conns = some ch) (hopen : ch.closed = false) (hr : r ≠ none) :
    (ch.buf.length = ch.cap →
        c.Put r calls = { out := .ret none, pool := c, calls := calls }
          ∧ (c.Put r calls).pool.Len = ch.cap)
    ∧ (ch.buf.length < ch.cap →
        (c.Put r calls).out = .ret none
          ∧ (c.Put r calls).pool.conns = some { ch with buf := ch.buf ++ [r] }
          ∧ (c.Put r calls).pool.Len = c.Len + 1
          ∧ (c.Put r calls).pool.factory = c.factory
          ∧ (c.Put r calls).calls = calls) := by
  constructor
  · intro hfull
    rw [Put_full c ch r calls hc hopen hr (by omega)]
    exact ⟨rfl, by simp [channelPool.Len, chanLen, hc, hfull]⟩
  · intro hroom
    rw [Put_room c ch r calls hc hopen hr hroom]
    refine ⟨rfl, rfl, ?_, rfl, rfl⟩
    simp [channelPool.Len, chanLen, hc]

/-- C8, at capacity 2: a third resource is not admitted to the full pool, and
a second resource is admitted to the pool that holds one. -/
theorem Put_full_or_room_witness :
    (channelPool.Put ⟨some ⟨2, [some 0, some 1], false⟩, some Test.factory⟩ (some 7) 2
        = { out := .ret none, pool := ⟨some ⟨2, [some 0, some 1], false⟩, some Test.factory⟩,
            calls := 2 }
      ∧ (channelPool.Put ⟨some ⟨2, [some 0, some 1], false⟩, some Test.factory⟩
          (some 7) 2).pool.Len = 2)
    ∧ ((channelPool.Put ⟨some ⟨2, [some 1], false⟩, some Test.factory⟩ (some 0) 2).out
          = .ret none
      ∧ (channelPool.Put ⟨some ⟨2, [some 1], false⟩, some Test.factory⟩ (some 0) 2).pool.conns
          = some ⟨2, [some 1] ++ [some 0], false⟩
      ∧ (channelPool.Put ⟨some ⟨2, [some 1], false⟩, some Test.factory⟩ (some 0) 2).pool.Len
          = channelPool.Len ⟨some ⟨2, [some 1], false⟩, some Test.factory⟩ + 1
      ∧ (channelPool.Put ⟨some ⟨2, [some 1], false⟩, some Test.factory⟩ (some 0) 2).pool.factory
          = some Test.factory
      ∧ (channelPool.Put ⟨some ⟨2, [some 1], false⟩, some Test.factory⟩ (some 0) 2).calls = 2) :=
  ⟨(Put_full_or_room ⟨some ⟨2, [some 0, some 1], false⟩, some Test.factory⟩
      ⟨2, [some 0, some 1], false⟩ (some 7) 2 rfl rfl (by decide)).1 rfl,
    (Put_full_or_room ⟨some ⟨2, [some 1], false⟩, some Test.factory⟩
      ⟨2, [some 1], false⟩ (some 0) 2 rfl rfl (by decide)).2 (by decide)⟩

/-- C9: on an open pool with at least one idle resource (idle storage within the
channel capacity, its values non-nil), `Get` followed by `Put` of the returned
resource succeeds twice, leaves `Len()` at its value before the `Get`, and
leaves idle storage with the same multiset of resources (the resource has
moved from the front to the back). -/
theorem Get_Put_round_trip (c : channelPool) (ch : Chan) (calls : Nat)
    (hc : c.conns = some ch) (hopen : ch.closed = false) (hwf : ch.buf.length ≤ ch.cap)
    (hne : ch.buf ≠ []) (hres : ∀ x ∈ ch.buf, x ≠ none) :
    ∃ (r : GenericConn) (ch2 : Chan),
      (c.Get calls).out = .ret (r, none)
        ∧ ((c.Get calls).pool.Put r (c.Get calls).calls).out = .ret none
        ∧ ((c.Get calls).pool.Put r (c.Get calls).calls).pool.conns = some ch2
        ∧ ((c.Get calls).pool.Put r (c.Get calls).calls).pool.Len = c.Len
        ∧ (ch2.buf : Multiset GenericConn) = (ch.buf : Multiset GenericConn)
        ∧ ch2.buf = ch.buf.tail ++ [r] := by
  rcases hbuf : ch.buf with _ | ⟨r, rest⟩
  · exact absurd hbuf hne
  · have hr : r ≠ none := hres r (by rw [hbuf]; exact List.mem_cons_self r rest)
    rw [hbuf] at hwf
    simp only [List.length_cons] at hwf
    have hput := Put_room { c with conns := some { ch with buf := rest } }
      { ch with buf := rest } r calls rfl hopen hr (by simpa using hwf)
    rw [Get_cons c ch r rest calls hc hbuf hr]
    refine ⟨r, { ch with buf := rest ++ [r] }, rfl, ?_⟩
    simp only
    rw [hput]
    refine ⟨rfl, rfl, ?_, ?_, rfl⟩
    · simp [channelPool.Len, chanLen, hc, hbuf]
    · simp only [Multiset.coe_eq_coe]
      exact (List.perm_append_singleton r rest)

/-- C9, on the pool of `TestPool_PutUnusableConn`, shortened to three idle
resources of thirty. -/
theorem Get_Put_round_trip_witness :
    ∃ (r : GenericConn) (ch2 : Chan),
      (channelPool.Get ⟨some ⟨30, [some 0, some 1, some 2], false⟩, some Test.factory⟩ 3).out
          = .ret (r, none)
        ∧ ((channelPool.Get ⟨some ⟨30, [some 0, some 1, some 2], false⟩,
              some Test.factory⟩ 3).pool.Put r
            (channelPool.Get ⟨some ⟨30, [some 0, some 1, some 2], false⟩,
              some Test.factory⟩ 3).calls).out = .ret none
        ∧ ((channelPool.Get ⟨some ⟨30, [some 0, some 1, some 2], false⟩,
              some Test.factory⟩ 3).pool.Put r
            (channelPool.Get ⟨some ⟨30, [some 0, some 1, some 2], false⟩,
              some Test.factory⟩ 3).calls).pool.conns = some ch2
        ∧ ((channelPool.Get ⟨some ⟨30, [some 0, some 1, some 2], false⟩,
              some Test.factory⟩ 3).pool.Put r
            (channelPool.Get ⟨some ⟨30, [some 0, some 1, some 2], false⟩,
              some Test.factory⟩ 3).calls).pool.Len
            = channelPool.Len ⟨some ⟨30, [some 0, some 1, some 2], false⟩, some Test.factory⟩
        ∧ (ch2.buf : Multiset GenericConn)
            = (([some 0, some 1, some 2] : List GenericConn) : Multiset GenericConn)
        ∧ ch2.buf = ([some 0, some 1, some 2] : List GenericConn).tail ++ [r] :=
  Get_Put_round_trip ⟨some ⟨30, [some 0, some 1, some 2], false⟩, some Test.factory⟩
    ⟨30, [some 0, some 1, some 2], false⟩ 3 rfl rfl (by decide) (by decide) (by decide)

/-! ## Close -/

/-- The guarded receive of `Close` never blocks and never panics: with a
buffered value present the receive reports an open channel, so `close` is not
executed. -/
theorem Close_drain_ret (ch : Chan) : ∃ ch2, channelPool.Close.drain ch = .ret ch2 := by
  rcases hbuf : ch.buf with _ | ⟨r, rest⟩
  · exact ⟨ch, by simp [channelPool.Close.drain, hbuf]⟩
  · exact ⟨{ ch with buf := rest }, by simp [channelPool.Close.drain, chanRecv, hbuf]⟩

/-- C10: in every pool state (any idle storage, also empty, and already
closed), `Close` returns, and afterwards the `conns` channel is nil, the
factory is nil and `Len()` is 0; no factory invocation is made. -/
theorem Close_clears_pool (c : channelPool) (calls : Nat) :
    (c.Close calls).out = .ret ()
      ∧ (c.Close calls).pool.conns = none
      ∧ (c.Close calls).pool.factory = none
      ∧ (c.Close calls).pool.Len = 0
      ∧ (c.Close calls).calls = calls := by
  rcases hc : c.conns with _ | ch
  · simp [channelPool.Close, hc, channelPool.Len, chanLen]
  · obtain ⟨ch2, h2⟩ := Close_drain_ret ch
    simp [channelPool.Close, hc, h2, channelPool.Len, chanLen]

/-- The guarded block of `Close` in closed form: the front value, when there is
one, is received, and the closed flag is left as it was. -/
theorem Close_drain_eq (ch : Chan) :
    channelPool.Close.drain ch = .ret { ch with buf := ch.buf.tail } := by
  rcases hbuf : ch.buf with _ | ⟨r, rest⟩
  · have h : ch = { ch with buf := [] } := by rw [← hbuf]
    simp only [channelPool.Close.drain, hbuf, List.length_nil, Nat.lt_irrefl, if_false,
      List.tail_nil]
    rw [← h]
  · simp [channelPool.Close.drain, chanRecv, hbuf]

/-- The method `Close` in closed form: it returns, the pool has neither channel
nor factory afterwards, and the channel it referred to is left without its
front value, its capacity and closed flag as they were. -/
theorem Close_eq (c : channelPool) (calls : Nat) :
    c.Close calls
      = { out := .ret (), pool := { conns := none, factory := none }, calls := calls,
          chan := c.conns.map fun ch => { ch with buf := ch.buf.tail } } := by
  rcases hc : c.conns with _ | ch
  · simp [channelPool.Close, hc]
  · simp [channelPool.Close, hc, Close_drain_eq]

/-! ## After Close -/

/-- One call on a closed pool: it returns, `Get` with a nil resource and
`ErrClosed`, `Len` with 0, and the pool is closed afterwards. -/
theorem call_closed (c : channelPool) (calls : Nat) (op : Call) (hc : c.conns = none) :
    ∃ r, (c.call calls op).out = .ret r
      ∧ (op = .Get → r = .Get none (some .ErrClosed)) ∧ (op = .Len → r = .Len 0)
      ∧ (c.call calls op).pool.conns = none ∧ (c.call calls op).calls = calls := by
  cases op with
  | Get =>
    refine ⟨.Get none (some .ErrClosed), ?_, ?_, ?_, ?_, ?_⟩ <;>
      simp [channelPool.call, channelPool.Get, hc, Step.map]
  | Put conn =>
    by_cases hn : conn = none
    · refine ⟨.Put (some (.New "connection is nil. rejecting")), ?_, ?_, ?_, ?_, ?_⟩ <;>
        simp [channelPool.call, channelPool.Put, hc, hn, Step.map]
    · refine ⟨.Put none, ?_, ?_, ?_, ?_, ?_⟩ <;>
        simp [channelPool.call, channelPool.Put, hc, hn, Step.map]
  | Len =>
    refine ⟨.Len 0, ?_, ?_, ?_, ?_, ?_⟩ <;>
      simp [channelPool.call, channelPool.Len, chanLen, hc]
  | Close =>
    refine ⟨.Close, ?_, ?_, ?_, ?_, ?_⟩ <;>
      simp [channelPool.call, Close_eq, Step.map]

/-- Every sequence of calls on a closed pool runs to its end; each `Get` in it
returns a nil resource with `ErrClosed`, each `Len` returns 0, and the pool is
closed at the end. -/
theorem run_closed (ops : List Call) :
    ∀ (c : channelPool) (calls : Nat), c.conns = none →
      ∃ replies, (c.run calls ops).out = .ret replies
        ∧ List.Forall₂ (fun op r =>
            (op = Call.Get → r = Reply.Get none (some .ErrClosed))
              ∧ (op = Call.Len → r = Reply.Len 0)) ops replies
        ∧ (c.run calls ops).pool.conns = none ∧ (c.run calls ops).calls = calls := by
  induction ops with
  | nil => intro c calls hc; exact ⟨[], rfl, List.Forall₂.nil, hc, rfl⟩
  | cons op ops ih =>
    intro c calls hc
    obtain ⟨r, hout, hget, hlen, hconns, hcalls⟩ := call_closed c calls op hc
    obtain ⟨rs, hrs, hall, hconns2, hcalls2⟩ := ih (c.call calls op).pool (c.call calls op).calls hconns
    refine ⟨r :: rs, ?_, List.Forall₂.cons ⟨hget, hlen⟩ hall, ?_, ?_⟩
    · simp only [channelPool.run, hout, Step.map, hrs]
    · simp only [channelPool.run, hout, Step.map, hconns2]
    · simp only [channelPool.run, hout, Step.map]
      rw [hcalls2, hcalls]

/-- C11: closed is terminal.  After `Close`, every finite sequence of later
`Get`, `Put`, `Len` and `Close` calls runs to its end without blocking; every
`Get` in it returns a nil resource and `ErrClosed`, every `Len` returns 0, and
the pool is still closed afterwards (the sequence is arbitrary, so this holds
after each of its calls). -/
theorem closed_is_terminal (c : channelPool) (calls : Nat) (ops : List Call) :
    ∃ replies, ((c.Close calls).pool.run (c.Close calls).calls ops).out = .ret replies
      ∧ List.Forall₂ (fun op r =>
          (op = Call.Get → r = Reply.Get none (some .ErrClosed))
            ∧ (op = Call.Len → r = Reply.Len 0)) ops replies
      ∧ ((c.Close calls).pool.run (c.Close calls).calls ops).pool.conns = none
      ∧ ((c.Close calls).pool.run (c.Close calls).calls ops).pool.Len = 0 := by
  obtain ⟨replies, hout, hall, hconns, _⟩ :=
    run_closed ops (c.Close calls).pool (c.Close calls).calls (by rw [Close_eq])
  exact ⟨replies, hout, hall, hconns, by simp [channelPool.Len, chanLen, hconns]⟩

/-- C12: `Close` is idempotent.  In every pool state a second `Close` returns
(it neither panics nor blocks) and leaves the pool in the state that the first
`Close` left it in. -/
theorem Close_idempotent (c : channelPool) (calls : Nat) :
    ((c.Close calls).pool.Close (c.Close calls).calls).out = .ret ()
      ∧ ((c.Close calls).pool.Close (c.Close calls).calls).pool = (c.Close calls).pool
      ∧ ((c.Close calls).pool.Close (c.Close calls).calls).calls = (c.Close calls).calls := by
  simp [Close_eq]

/-- C13 (refuted as stated): on the open pool with three idle resources, `Close`
takes one resource out of the channel; the other two are still buffered in the
channel when `Close` has set `conns` to nil, so not all idle resources are
removed from idle storage. -/
theorem Close_leaves_resources_in_channel :
    (channelPool.Close ⟨some ⟨3, [some 0, some 1, some 2], false⟩, some Test.factory⟩ 3).out
        = .ret ()
      ∧ (channelPool.Close ⟨some ⟨3, [some 0, some 1, some 2], false⟩, some Test.factory⟩
          3).pool.conns = none
      ∧ (channelPool.Close ⟨some ⟨3, [some 0, some 1, some 2], false⟩, some Test.factory⟩
          3).chan = some ⟨3, [some 1, some 2], false⟩
      ∧ ¬ (∀ ch2,
            (channelPool.Close ⟨some ⟨3, [some 0, some 1, some 2], false⟩, some Test.factory⟩
              3).chan = some ch2 → ch2.buf = []) := by
  refine ⟨rfl, rfl, rfl, ?_⟩
  intro h
  have h2 := h ⟨3, [some 1, some 2], false⟩ rfl
  simp at h2

/-- C13 (amended): on an open pool holding `n` idle resources, `Close` returns
and leaves `conns` nil and `Len()` 0, and the channel that the pool abandons
is the channel as it was without its front value: apart from the front one,
which `Close` received, the `n - 1` other resources are still buffered in it,
and its closed flag is as it was. -/
theorem Close_discards_reference (c : channelPool) (ch : Chan) (calls n : Nat)
    (hc : c.conns = some ch) (hn : ch.buf.length = n) :
    (c.Close calls).out = .ret ()
      ∧ (c.Close calls).pool.conns = none ∧ (c.Close calls).pool.Len = 0
      ∧ (c.Close calls).chan = some { ch with buf := ch.buf.tail }
      ∧ ch.buf.tail.length = n - 1 := by
  rw [Close_eq, hc]
  exact ⟨rfl, rfl, rfl, rfl, by simp [hn]⟩

/-- C13 (amended), on the pool of the tests after creation, shortened to three
resources. -/
theorem Close_discards_reference_witness :
    (channelPool.Close ⟨some ⟨30, [some 0, some 1, some 2], false⟩, some Test.factory⟩ 3).out
        = .ret ()
      ∧ (channelPool.Close ⟨some ⟨30, [some 0, some 1, some 2], false⟩, some Test.factory⟩
          3).pool.conns = none
      ∧ (channelPool.Close ⟨some ⟨30, [some 0, some 1, some 2], false⟩, some Test.factory⟩
          3).pool.Len = 0
      ∧ (channelPool.Close ⟨some ⟨30, [some 0, some 1, some 2], false⟩, some Test.factory⟩
          3).chan
          = some { (⟨30, [some 0, some 1, some 2], false⟩ : Chan) with
              buf := ([some 0, some 1, some 2] : List GenericConn).tail }
      ∧ ([some 0, some 1, some 2] : List GenericConn).tail.length = 3 - 1 :=
  Close_discards_reference ⟨some ⟨30, [some 0, some 1, some 2], false⟩, some Test.factory⟩
    ⟨30, [some 0, some 1, some 2], false⟩ 3 3 rfl rfl

/-- C19: `Close` never executes `close(c.conns)` and never panics.  The receive
in `Close` runs only with a buffered value present and then reports
`ok == true`; `Close` returns in every pool state, and the channel it leaves
has the closed flag it had (so `close` was not executed on it); with `n ≥ 1`
idle resources exactly one, the front one, has been taken out of the channel
when the reference to it is dropped. -/
theorem Close_never_closes_channel (c : channelPool) (ch : Chan) (calls : Nat)
    (hc : c.conns = some ch) :
    (∀ v ok ch2, 0 < ch.buf.length → chanRecv ch = .ret ((v, ok), ch2) → ok = true)
      ∧ (∀ (c2 : channelPool) (k : Nat), (c2.Close k).out = .ret ())
      ∧ (c.Close calls).pool.conns = none
      ∧ (∃ ch2, (c.Close calls).chan = some ch2 ∧ ch2.closed = ch.closed
          ∧ ch2.cap = ch.cap ∧ ch2.buf = ch.buf.tail
          ∧ (1 ≤ ch.buf.length →
              ch2.buf.length + 1 = ch.buf.length ∧ ∃ r, ch.buf = r :: ch2.buf)) := by
  refine ⟨?_, fun c2 k => by rw [Close_eq], by rw [Close_eq], ?_⟩
  · intro v ok ch2 hpos hrecv
    rcases hbuf : ch.buf with _ | ⟨r, rest⟩
    · rw [hbuf] at hpos; simp at hpos
    · simp [chanRecv, hbuf] at hrecv
      exact hrecv.1.2
  · rw [Close_eq, hc]
    refine ⟨_, rfl, rfl, rfl, rfl, ?_⟩
    intro hpos
    rcases hbuf : ch.buf with _ | ⟨r, rest⟩
    · rw [hbuf] at hpos; simp at hpos
    · exact ⟨by simp [hbuf], r, by simp [hbuf]⟩

/-- C19, on an open pool with three idle resources. -/
theorem Close_never_closes_channel_witness :
    (∀ v ok ch2, 0 < ([some 0, some 1, some 2] : List GenericConn).length →
        chanRecv ⟨3, [some 0, some 1, some 2], false⟩ = .ret ((v, ok), ch2) → ok = true)
      ∧ (∀ (c2 : channelPool) (k : Nat), (c2.Close k).out = .ret ())
      ∧ (channelPool.Close ⟨some ⟨3, [some 0, some 1, some 2], false⟩, some Test.factory⟩
          3).pool.conns = none
      ∧ (∃ ch2,
          (channelPool.Close ⟨some ⟨3, [some 0, some 1, some 2], false⟩, some Test.factory⟩
            3).chan = some ch2
          ∧ ch2.closed = false ∧ ch2.cap = 3
          ∧ ch2.buf = ([some 0, some 1, some 2] : List GenericConn).tail
          ∧ (1 ≤ ([some 0, some 1, some 2] : List GenericConn).length →
              ch2.buf.length + 1 = ([some 0, some 1, some 2] : List GenericConn).length
                ∧ ∃ r, [some 0, some 1, some 2] = r :: ch2.buf)) :=
  Close_never_closes_channel ⟨some ⟨3, [some 0, some 1, some 2], false⟩, some Test.factory⟩
    ⟨3, [some 0, some 1, some 2], false⟩ 3 rfl

/-! ## The capacity invariant -/

/-- What a completed fill loop leaves: the channel it started from, with one
more buffered value and one more factory invocation per iteration. -/
theorem fill_ret_ok (factory : Option Factory) :
    ∀ (n : Nat) (ch : Chan) (calls : Nat) (ch2 : Chan) (calls2 : Nat),
      NewChannelPool.fill factory n ch calls = (.ret (.ok ch2), calls2) →
      ch2.cap = ch.cap ∧ ch2.closed = ch.closed ∧ ch2.buf.length = ch.buf.length + n
        ∧ calls2 = calls + n := by
  intro n
  induction n with
  | zero =>
    intro ch calls ch2 calls2 h
    simp only [NewChannelPool.fill, Prod.mk.injEq, Outcome.ret.injEq, Except.ok.injEq] at h
    obtain ⟨rfl, rfl⟩ := h
    exact ⟨rfl, rfl, rfl, rfl⟩
  | succ n ih =>
    intro ch calls ch2 calls2 h
    rcases factory with _ | f
    · simp [NewChannelPool.fill] at h
    · rw [NewChannelPool.fill] at h
      rcases hfc : f calls with ⟨conn, _ | e⟩
      · simp only [hfc] at h
        by_cases hclosed : ch.closed = true
        · simp [chanSend, hclosed] at h
        · by_cases hroom : ch.buf.length < ch.cap
          · simp only [chanSend, hclosed, hroom, if_true, if_false] at h
            obtain ⟨h1, h2, h3, h4⟩ := ih _ _ _ _ h
            have hfalse : ch.closed = false := by simpa using hclosed
            refine ⟨h1, by rw [h2, hfalse], ?_, ?_⟩
            · rw [h3]; simp; omega
            · omega
          · simp [chanSend, hclosed, hroom] at h
      · simp [hfc] at h

/-- When `NewChannelPool` returns, whatever it returns, `make` accepted the
maximum capacity. -/
theorem NewChannelPool_ret_size (maxCap : Int) (factory : Option Factory) (calls : Nat)
    (r : Option channelPool × Option Error)
    (h : (NewChannelPool maxCap factory calls).out = .ret r) :
    0 ≤ maxCap ∧ elemSize * maxCap.toNat ≤ maxAlloc - hchanSize := by
  by_cases hbad : maxCap < 0 ∨ maxAlloc - hchanSize < elemSize * maxCap.toNat
  · simp [NewChannelPool, makeChan, hbad] at h
  · constructor <;> omega

/-- The pool that a successful `NewChannelPool` returns is open, and its channel
has capacity `maxCap` and is filled to capacity. -/
theorem NewChannelPool_ret_pool (maxCap : Int) (factory : Option Factory) (calls : Nat)
    (p : channelPool) (err : Option Error)
    (h : (NewChannelPool maxCap factory calls).out = .ret (some p, err)) :
    0 ≤ maxCap ∧ ∃ ch, p.conns = some ch ∧ ch.cap = maxCap.toNat
      ∧ ch.buf.length = maxCap.toNat ∧ ch.closed = false := by
  by_cases hbad : maxCap < 0 ∨ maxAlloc - hchanSize < elemSize * maxCap.toNat
  · simp [NewChannelPool, makeChan, hbad] at h
  · refine ⟨by omega, ?_⟩
    simp only [NewChannelPool, makeChan, if_neg hbad] at h
    rcases hfill : NewChannelPool.fill factory maxCap.toNat
        { cap := maxCap.toNat, buf := [], closed := false } calls with ⟨out, calls2⟩
    rw [hfill] at h
    rcases out with (e | ch2) | _ | _
    · simp at h
    · simp only [Outcome.ret.injEq, Prod.mk.injEq, Option.some.injEq] at h
      obtain ⟨h1, h2, h3, _⟩ := fill_ret_ok factory _ _ _ _ _ hfill
      refine ⟨ch2, ?_, h1, by simpa using h3, h2⟩
      rw [← h.1]
    · simp at h
    · simp at h

/-- The channel of the pool after `Get`, however the call ended: the channel
before the call without its front value. -/
theorem Get_pool_conns (c : channelPool) (calls : Nat) :
    (c.Get calls).pool.conns = c.conns.map fun ch => { ch with buf := ch.buf.tail } := by
  rcases hc : c.conns with _ | ch
  · simp [channelPool.Get, hc]
  · obtain ⟨cap, buf, closed⟩ := ch
    rcases buf with _ | ⟨r, rest⟩
    · cases closed <;> simp [channelPool.Get, hc, chanRecv]
    · by_cases hr : r = none <;> simp [channelPool.Get, hc, chanRecv, hr]

/-- The channel of the pool after `Put`, however the call ended: the channel
before the call, with the value appended when it was admitted, which happens
only below capacity. -/
theorem Put_pool_conns (c : channelPool) (r : GenericConn) (calls : Nat) (ch2 : Chan)
    (h : (c.Put r calls).pool.conns = some ch2) :
    ∃ ch, c.conns = some ch ∧ ch2.cap = ch.cap ∧ ch2.closed = ch.closed
      ∧ (ch2.buf = ch.buf ∨ (ch2.buf = ch.buf ++ [r] ∧ ch.buf.length < ch.cap)) := by
  by_cases hr : r = none
  · simp only [channelPool.Put, hr, if_true] at h
    exact ⟨ch2, h, rfl, rfl, Or.inl rfl⟩
  · rcases hc : c.conns with _ | ch
    · simp [channelPool.Put, hr, hc] at h
    · refine ⟨ch, rfl, ?_⟩
      by_cases hclosed : ch.closed = true
      · simp [channelPool.Put, hr, hc, chanTrySend, hclosed] at h
        subst h
        exact ⟨rfl, rfl, Or.inl rfl⟩
      · by_cases hroom : ch.buf.length < ch.cap
        · simp [channelPool.Put, hr, hc, chanTrySend, hclosed, hroom] at h
          subst h
          exact ⟨rfl, by simpa using hclosed, Or.inr ⟨rfl, hroom⟩⟩
        · simp [channelPool.Put, hr, hc, chanTrySend, hclosed, hroom] at h
          subst h
          exact ⟨rfl, rfl, Or.inl rfl⟩

/-- One call keeps the capacity bound, however it ends. -/
theorem call_withinCap (C : Nat) (c : channelPool) (calls : Nat) (op : Call)
    (h : c.WithinCap C) : (c.call calls op).pool.WithinCap C := by
  intro ch2 hch2
  cases op with
  | Get =>
    simp only [channelPool.call, Step.map, Get_pool_conns] at hch2
    rcases hc : c.conns with _ | ch
    · simp [hc] at hch2
    · simp only [hc, Option.map_some', Option.some.injEq] at hch2
      subst hch2
      obtain ⟨hcap, hlen⟩ := h ch hc
      exact ⟨hcap, by simp only [List.length_tail]; omega⟩
  | Put conn =>
    simp only [channelPool.call, Step.map] at hch2
    obtain ⟨ch, hc, hcap2, _, hbuf⟩ := Put_pool_conns c conn calls ch2 hch2
    obtain ⟨hcap, hlen⟩ := h ch hc
    refine ⟨by rw [hcap2, hcap], ?_⟩
    rcases hbuf with hbuf | ⟨hbuf, hroom⟩
    · rw [hbuf]; exact hlen
    · rw [hbuf]; simp only [List.length_append, List.length_singleton]; omega
  | Len => exact h ch2 hch2
  | Close => simp [channelPool.call, Step.map, Close_eq] at hch2

/-- A sequence of calls keeps the capacity bound, also when it ends early. -/
theorem run_withinCap (C : Nat) (ops : List Call) :
    ∀ (c : channelPool) (calls : Nat), c.WithinCap C → (c.run calls ops).pool.WithinCap C := by
  induction ops with
  | nil => intro c calls h; exact h
  | cons op ops ih =>
    intro c calls h
    have h1 := call_withinCap C c calls op h
    rcases hout : (c.call calls op).out with r | _ | _
    · simp only [channelPool.run, hout, Step.map]
      exact ih _ _ h1
    · simp only [channelPool.run, hout]
      exact h1
    · simp only [channelPool.run, hout]
      exact h1

/-- Under the capacity bound `Len()` is at most the capacity. -/
theorem Len_le_of_withinCap (C : Nat) (c : channelPool) (h : c.WithinCap C) : c.Len ≤ C := by
  rcases hc : c.conns with _ | ch
  · simp [channelPool.Len, chanLen, hc]
  · simp only [channelPool.Len, chanLen, hc]
    exact (h ch hc).2

/-- C14: the capacity invariant.  In every pool state reached from a successful
`NewChannelPool` with maximum capacity `maxCap` by a finite sequence of `Get`,
`Put`, `Len` and `Close` calls (run to its end or up to a call that blocks),
`0 ≤ Len() ≤ maxCap`. -/
theorem Len_within_capacity (maxCap : Int) (factory : Option Factory) (calls : Nat)
    (p : channelPool) (err : Option Error)
    (hnew : (NewChannelPool maxCap factory calls).out = .ret (some p, err))
    (ops : List Call) (calls2 : Nat) :
    (0 : Int) ≤ ((p.run calls2 ops).pool.Len : Int)
      ∧ ((p.run calls2 ops).pool.Len : Int) ≤ maxCap := by
  obtain ⟨hnonneg, ch, hc, hcap, hlen, _⟩ := NewChannelPool_ret_pool maxCap factory calls p err hnew
  have hinit : p.WithinCap maxCap.toNat := by
    intro ch2 hch2
    rw [hc] at hch2
    simp only [Option.some.injEq] at hch2
    subst hch2
    exact ⟨hcap, by omega⟩
  have hle := Len_le_of_withinCap _ _ (run_withinCap maxCap.toNat ops p calls2 hinit)
  refine ⟨Int.natCast_nonneg _, ?_⟩
  omega

/-- C14, for maximum capacity 3 and the factory of the tests: after two `Get`s,
three `Put`s (the last one onto a full pool) `Len()` is 3; the bound holds. -/
theorem Len_within_capacity_witness :
    (0 : Int) ≤ ((channelPool.run ⟨some ⟨3, [some 0, some 1, some 2], false⟩, some Test.factory⟩ 3
        [.Get, .Get, .Put (some 0), .Put (some 1), .Put (some 7), .Len]).pool.Len : Int)
      ∧ ((channelPool.run ⟨some ⟨3, [some 0, some 1, some 2], false⟩, some Test.factory⟩ 3
        [.Get, .Get, .Put (some 0), .Put (some 1), .Put (some 7), .Len]).pool.Len : Int) ≤ 3 :=
  Len_within_capacity 3 (some Test.factory) 0
    ⟨some ⟨3, [some 0, some 1, some 2], false⟩, some Test.factory⟩ none rfl
    [.Get, .Get, .Put (some 0), .Put (some 1), .Put (some 7), .Len] 3

/-! ## Callers that put back what they hold -/

/-- The completed moves of a caller on an open pool, case by case: a `Get` that
takes a resource, a `Get` that meets a nil value in front or a closed empty
channel, a `Put` that is admitted, a `Put` that is dropped because the channel
is full, and a `Put` of nil that is rejected. -/
theorem Caller.step_open (s s2 : Caller) (m : Move) (ch : Chan)
    (hc : s.pool.conns = some ch) (h : s.step m = some s2) :
    s2.calls = s.calls ∧ ∃ ch2, s2.pool.conns = some ch2 ∧ ch2.cap = ch.cap
      ∧ ch2.closed = ch.closed
      ∧ ((m = .Get ∧ ∃ r, r ≠ none ∧ ch.buf = r :: ch2.buf ∧ s2.held = r :: s.held)
        ∨ (m = .Get ∧ ch.buf = none :: ch2.buf ∧ s2.held = s.held)
        ∨ (m = .Get ∧ ch.buf = [] ∧ ch2.buf = [] ∧ ch.closed = true ∧ s2.held = s.held)
        ∨ (∃ r, m = .Put r ∧ r ∈ s.held ∧ r ≠ none ∧ ch.closed = false
            ∧ ch.buf.length < ch.cap ∧ ch2.buf = ch.buf ++ [r] ∧ s2.held = s.held.erase r)
        ∨ (∃ r, m = .Put r ∧ r ∈ s.held ∧ r ≠ none ∧ ch.closed = false
            ∧ ¬ ch.buf.length < ch.cap ∧ ch2.buf = ch.buf ∧ s2.held = s.held.erase r)
        ∨ (m = .Put none ∧ none ∈ s.held ∧ ch2.buf = ch.buf ∧ s2.held = s.held)) := by
  obtain ⟨cap, buf, closed⟩ := ch
  cases m with
  | Get =>
    rcases buf with _ | ⟨r, rest⟩
    · cases closed
      · simp [Caller.step, channelPool.Get, hc, chanRecv] at h
      · simp [Caller.step, channelPool.Get, hc, chanRecv] at h
        subst h
        exact ⟨rfl, _, rfl, rfl, rfl, by simp⟩
    · by_cases hr : r = none
      · simp [Caller.step, channelPool.Get, hc, chanRecv, hr] at h
        subst h
        exact ⟨rfl, _, rfl, rfl, rfl, by simp [hr]⟩
      · simp [Caller.step, channelPool.Get, hc, chanRecv, hr] at h
        subst h
        exact ⟨rfl, _, rfl, rfl, rfl, by simp [hr]⟩
  | Put r =>
    by_cases hmem : r ∈ s.held
    · by_cases hr : r = none
      · subst hr
        simp [Caller.step, channelPool.Put, hmem] at h
        subst h
        exact ⟨rfl, _, hc, rfl, rfl, by simp [hmem]⟩
      · cases closed
        · by_cases hroom : buf.length < cap
          · simp [Caller.step, channelPool.Put, hc, chanTrySend, hmem, hr, hroom] at h
            subst h
            exact ⟨rfl, _, rfl, rfl, rfl, by simp [hmem, hr, hroom]⟩
          · simp [Caller.step, channelPool.Put, hc, chanTrySend, hmem, hr, hroom] at h
            subst h
            exact ⟨rfl, _, rfl, rfl, rfl, by simp [hmem, hr, hroom]⟩
        · simp [Caller.step, channelPool.Put, hc, chanTrySend, hmem, hr] at h
    · simp [Caller.step, hmem] at h

/-- A property that every completed move keeps holds after every finite
sequence of completed moves. -/
theorem Caller.run_induction (P : Caller → Prop)
    (hstep : ∀ (s s2 : Caller) (m : Move), P s → s.step m = some s2 → P s2)
    (ms : List Move) :
    ∀ (s s2 : Caller), P s → Caller.run s ms = some s2 → P s2 := by
  induction ms with
  | nil =>
    intro s s2 hP h
    simp only [Caller.run, Option.some.injEq] at h
    exact h ▸ hP
  | cons m ms ih =>
    intro s s2 hP h
    rcases hm : s.step m with _ | s1
    · simp [Caller.run, hm] at h
    · simp only [Caller.run, hm] at h
      exact ih s1 s2 (hstep s s1 m hP hm) h

/-- A completed move keeps the accounting of `n` resources. -/
theorem Caller.step_conserved (n : Nat) (s s2 : Caller) (m : Move)
    (hP : s.Conserved n) (h : s.step m = some s2) : s2.Conserved n := by
  obtain ⟨ch, hc, hopen, hcap, hsum, hbuf, hheld⟩ := hP
  obtain ⟨_, ch2, hc2, hcap2, hclosed2, hcases⟩ := Caller.step_open s s2 m ch hc h
  refine ⟨ch2, hc2, by rw [hclosed2, hopen], by rw [hcap2, hcap], ?_⟩
  rcases hcases with ⟨_, r, hr, hb, hh⟩ | ⟨_, hb, _⟩ | ⟨_, _, _, hcl, _⟩ |
    ⟨r, _, hmem, hr, _, hroom, hb, hh⟩ | ⟨r, _, hmem, _, _, hfull, _, _⟩ | ⟨_, hmem, _, _⟩
  · refine ⟨?_, ?_, ?_⟩
    · rw [hb] at hsum; rw [hh]; simp only [List.length_cons] at hsum ⊢; omega
    · intro x hx; exact hbuf x (by rw [hb]; exact List.mem_cons_of_mem r hx)
    · intro x hx; rw [hh] at hx
      rcases List.mem_cons.mp hx with rfl | hx
      · exact hr
      · exact hheld x hx
  · exact absurd rfl (hbuf none (by rw [hb]; exact List.mem_cons_self _ _))
  · rw [hopen] at hcl; cases hcl
  · refine ⟨?_, ?_, ?_⟩
    · rw [hb, hh, List.length_erase_of_mem hmem]
      have hpos : 0 < s.held.length := List.length_pos_of_mem hmem
      simp only [List.length_append, List.length_singleton]; omega
    · intro x hx; rw [hb] at hx
      rcases List.mem_append.mp hx with hx | hx
      · exact hbuf x hx
      · rw [List.mem_singleton.mp hx]; exact hr
    · intro x hx; rw [hh] at hx; exact hheld x (List.mem_of_mem_erase hx)
  · have hpos : 0 < s.held.length := List.length_pos_of_mem hmem
    omega
  · exact absurd rfl (hheld none hmem)

/-- A completed move keeps idle and held resources free of repetitions. -/
theorem Caller.step_exclusive (s s2 : Caller) (m : Move)
    (hP : s.Exclusive) (h : s.step m = some s2) : s2.Exclusive := by
  obtain ⟨ch, hc, hnd⟩ := hP
  obtain ⟨_, ch2, hc2, _, _, hcases⟩ := Caller.step_open s s2 m ch hc h
  refine ⟨ch2, hc2, ?_⟩
  rcases hcases with ⟨_, r, _, hb, hh⟩ | ⟨_, hb, hh⟩ | ⟨_, hb, hb2, _, hh⟩ |
    ⟨r, _, hmem, _, _, _, hb, hh⟩ | ⟨r, _, hmem, _, _, _, hb, hh⟩ | ⟨_, _, hb, hh⟩
  · rw [hb] at hnd; rw [hh]
    exact (List.perm_middle.nodup_iff).mpr hnd
  · rw [hb] at hnd; rw [hh]
    exact (List.nodup_cons.mp hnd).2
  · rw [hb2, hh]; rw [hb] at hnd; exact hnd
  · rw [hb, hh, List.append_assoc]
    obtain ⟨l1, l2, _, hsplit, herase⟩ := List.exists_erase_eq hmem
    have hperm : (ch.buf ++ ([r] ++ s.held.erase r)).Perm (ch.buf ++ s.held) := by
      have hmid : (l1 ++ r :: l2).Perm (r :: (l1 ++ l2)) := List.perm_middle
      rw [herase, hsplit]
      exact List.Perm.append_left _ hmid.symm
    exact hperm.nodup_iff.mpr hnd
  · rw [hb, hh]
    exact hnd.sublist (List.Sublist.append_left (List.erase_sublist r s.held) ch.buf)
  · rw [hb, hh]; exact hnd

/-- The values handed over by a factory whose successful invocations return
non-nil values are non-nil. -/
theorem produced_ne_none (f : Factory) (calls n : Nat)
    (hres : ∀ k, k < n → (f (calls + k)).1 ≠ none) :
    ∀ x ∈ produced f calls n, x ≠ none := by
  intro x hx
  simp only [produced, List.mem_map, List.mem_range] at hx
  obtain ⟨k, hk, rfl⟩ := hx
  exact hres k hk

/-- C15: conservation.  Take the pool that `NewChannelPool` returns for a
factory that neither fails nor returns nil.  After every finite sequence of
completed `Get` calls and `Put` calls of resources the caller holds, `Len()`
plus the number of resources the caller holds equals the number of resources
that the factory created for the pool; no further factory invocation has been
made, and a `Put` of any held resource is admitted (`Len()` grows by one). -/
theorem Len_plus_held_conserved (n : Nat) (f : Factory) (calls : Nat)
    (hok : ∀ k, k < n → (f (calls + k)).2 = none)
    (hres : ∀ k, k < n → (f (calls + k)).1 ≠ none)
    (p : channelPool) (hnew : (NewChannelPool n (some f) calls).out = .ret (some p, none))
    (ms : List Move) (s2 : Caller)
    (hrun : Caller.run ⟨p, (NewChannelPool n (some f) calls).calls, []⟩ ms = some s2) :
    s2.pool.Len + s2.held.length = (NewChannelPool n (some f) calls).calls - calls
      ∧ s2.pool.Len + s2.held.length = n
      ∧ s2.calls = (NewChannelPool n (some f) calls).calls
      ∧ ∀ r, r ∈ s2.held →
          (s2.pool.Put r s2.calls).out = .ret none
            ∧ (s2.pool.Put r s2.calls).pool.Len = s2.pool.Len + 1 := by
  have hsize : elemSize * n ≤ maxAlloc - hchanSize := by
    simpa using (NewChannelPool_ret_size n (some f) calls _ hnew).2
  rw [NewChannelPool_ok n f calls hsize hok] at hnew hrun
  simp only [Outcome.ret.injEq, Prod.mk.injEq, Option.some.injEq, and_true] at hnew
  subst hnew
  rw [NewChannelPool_ok n f calls hsize hok]
  simp only at hrun ⊢
  have hinit : (fun s : Caller => s.Conserved n ∧ s.calls = calls + n)
      ⟨⟨some ⟨n, produced f calls n, false⟩, some f⟩, calls + n, []⟩ :=
    ⟨⟨⟨n, produced f calls n, false⟩, rfl, rfl, rfl, by simp [produced_length],
      produced_ne_none f calls n hres, by simp⟩, rfl⟩
  have hfinal := Caller.run_induction (fun s => s.Conserved n ∧ s.calls = calls + n)
    (fun s s1 m hP hstep => by
      obtain ⟨hcons, hcalls⟩ := hP
      refine ⟨Caller.step_conserved n s s1 m hcons hstep, ?_⟩
      obtain ⟨ch, hc, _⟩ := hcons
      rw [(Caller.step_open s s1 m ch hc hstep).1, hcalls])
    ms _ s2 hinit hrun
  obtain ⟨⟨ch, hc, hopen, hcap, hsum, _, hheld⟩, hcalls⟩ := hfinal
  have hlen : s2.pool.Len = ch.buf.length := by simp [channelPool.Len, chanLen, hc]
  refine ⟨by rw [hlen, hsum]; omega, by rw [hlen, hsum], hcalls, ?_⟩
  intro r hr
  have hpos : 0 < s2.held.length := List.length_pos_of_mem hr
  rw [Put_room s2.pool ch r s2.calls hc hopen (hheld r hr) (by omega)]
  exact ⟨rfl, by simp [channelPool.Len, chanLen, hc]⟩

/-- C15, for three resources made by the factory of the tests: two taken, one
put back, one more taken. -/
theorem Len_plus_held_conserved_witness :
    channelPool.Len ⟨some ⟨3, [some 0], false⟩, some Test.factory⟩
          + ([some 2, some 1] : List GenericConn).length
        = (NewChannelPool ((3 : Nat) : Int) (some Test.factory) 0).calls - 0
      ∧ channelPool.Len ⟨some ⟨3, [some 0], false⟩, some Test.factory⟩
          + ([some 2, some 1] : List GenericConn).length = 3
      ∧ 3 = (NewChannelPool ((3 : Nat) : Int) (some Test.factory) 0).calls
      ∧ ∀ r, r ∈ ([some 2, some 1] : List GenericConn) →
          (channelPool.Put ⟨some ⟨3, [some 0], false⟩, some Test.factory⟩ r 3).out = .ret none
            ∧ (channelPool.Put ⟨some ⟨3, [some 0], false⟩, some Test.factory⟩ r 3).pool.Len
              = channelPool.Len ⟨some ⟨3, [some 0], false⟩, some Test.factory⟩ + 1 :=
  Len_plus_held_conserved 3 Test.factory 0 (fun _ _ => rfl) (fun _ _ => by simp [Test.factory])
    ⟨some ⟨3, [some 0, some 1, some 2], false⟩, some Test.factory⟩ rfl
    [.Get, .Get, .Put (some 0), .Get]
    ⟨⟨some ⟨3, [some 0], false⟩, some Test.factory⟩, 3, [some 2, some 1]⟩ rfl

/-- C16: the ownership invariant.  Take the pool that `NewChannelPool` returns
for a factory that does not fail and whose resources are pairwise distinct.
After every finite sequence of completed `Get` calls and `Put` calls of
resources the caller holds, no resource is both in idle storage and held, no
resource occurs twice in idle storage, and no resource is held twice (no two
outstanding `Get`s returned the same resource). -/
theorem idle_and_held_exclusive (n : Nat) (f : Factory) (calls : Nat)
    (hok : ∀ k, k < n → (f (calls + k)).2 = none)
    (hdist : (produced f calls n).Nodup)
    (p : channelPool) (hnew : (NewChannelPool n (some f) calls).out = .ret (some p, none))
    (ms : List Move) (s2 : Caller)
    (hrun : Caller.run ⟨p, (NewChannelPool n (some f) calls).calls, []⟩ ms = some s2) :
    ∃ ch, s2.pool.conns = some ch
      ∧ (∀ x, x ∈ ch.buf → x ∉ s2.held) ∧ ch.buf.Nodup ∧ s2.held.Nodup := by
  have hsize : elemSize * n ≤ maxAlloc - hchanSize := by
    simpa using (NewChannelPool_ret_size n (some f) calls _ hnew).2
  rw [NewChannelPool_ok n f calls hsize hok] at hnew hrun
  simp only [Outcome.ret.injEq, Prod.mk.injEq, Option.some.injEq, and_true] at hnew
  subst hnew
  simp only at hrun
  have hinit : Caller.Exclusive
      ⟨⟨some ⟨n, produced f calls n, false⟩, some f⟩, calls + n, []⟩ :=
    ⟨⟨n, produced f calls n, false⟩, rfl, by simpa using hdist⟩
  obtain ⟨ch, hc, hnd⟩ := Caller.run_induction Caller.Exclusive
    (fun s s1 m hP hstep => Caller.step_exclusive s s1 m hP hstep) ms _ s2 hinit hrun
  rw [List.nodup_append] at hnd
  exact ⟨ch, hc, fun x hx hx2 => hnd.2.2 hx hx2, hnd.1, hnd.2.1⟩

/-- C16, for three distinct resources made by the factory of the tests: two
taken, one put back, one more taken. -/
theorem idle_and_held_exclusive_witness :
    ∃ ch, (⟨some ⟨3, [some 0], false⟩, some Test.factory⟩ : channelPool).conns = some ch
      ∧ (∀ x, x ∈ ch.buf → x ∉ ([some 2, some 1] : List GenericConn))
      ∧ ch.buf.Nodup ∧ ([some 2, some 1] : List GenericConn).Nodup :=
  idle_and_held_exclusive 3 Test.factory 0 (fun _ _ => rfl) (by decide)
    ⟨some ⟨3, [some 0, some 1, some 2], false⟩, some Test.factory⟩ rfl
    [.Get, .Get, .Put (some 0), .Get]
    ⟨⟨some ⟨3, [some 0], false⟩, some Test.factory⟩, 3, [some 2, some 1]⟩ rfl

/-! ## Nil values in idle storage -/

/-- C17 (the code departs from it): `NewChannelPool` sends whatever the factory
returned with a nil error.  With a factory that returns a nil value and a nil
error, creation succeeds and idle storage holds a nil element; `Get` on that
open, non-empty pool then reports `ErrClosed`, and the pool is still open. -/
theorem NewChannelPool_admits_nil :
    ∃ p : channelPool, (NewChannelPool 1 (some Test.nilFactory) 0).out = .ret (some p, none)
      ∧ p.conns = some ⟨1, [none], false⟩ ∧ p.Len = 1
      ∧ (p.Get 1).out = .ret (none, some .ErrClosed)
      ∧ (p.Get 1).pool.conns = some ⟨1, [], false⟩ :=
  ⟨⟨some ⟨1, [none], false⟩, some Test.nilFactory⟩, rfl, rfl, rfl, rfl, rfl⟩

/-! ## The wrapper -/

/-- C18 (the code departs from it): on a pool with three idle clients,
`connFetcher` hands the first client to the caller after the deferred `Put`
has already run: at the moment the HTTP call starts the client is back in idle
storage, at the tail, and `Len()` is 3 as before the acquire, not 2. -/
theorem connFetcher_puts_back_before_use :
    (PooledHttpClient.Do ⟨⟨some ⟨3, [some 0, some 1, some 2], false⟩, some Test.factory⟩⟩ 3).out
        = .ret (some 0)
      ∧ (PooledHttpClient.Do ⟨⟨some ⟨3, [some 0, some 1, some 2], false⟩, some Test.factory⟩⟩
          3).pool.conns = some ⟨3, [some 1, some 2, some 0], false⟩
      ∧ some 0 ∈ ([some 1, some 2, some 0] : List GenericConn)
      ∧ (PooledHttpClient.Do ⟨⟨some ⟨3, [some 0, some 1, some 2], false⟩, some Test.factory⟩⟩
          3).pool.Len = 3
      ∧ (PooledHttpClient.Do ⟨⟨some ⟨3, [some 0, some 1, some 2], false⟩, some Test.factory⟩⟩
          3).pool.Len
          ≠ channelPool.Len ⟨some ⟨3, [some 0, some 1, some 2], false⟩, some Test.factory⟩ - 1 :=
  ⟨rfl, rfl, by decide, rfl, by decide⟩

/-! ## Order of idle storage -/

/-- Two functions applied one after the other to the value a call returned. -/
theorem Step.map_map {α β γ : Type} (f : α → β) (g : β → γ) (s : Step α) :
    (s.map f).map g = s.map fun v => g (f v) := by
  obtain ⟨out, pool, calls⟩ := s
  cases out <;> rfl

/-- A sequence of calls whose first call returns goes on with the rest. -/
theorem run_cons_ret (c : channelPool) (calls : Nat) (op : Call) (ops : List Call) (r : Reply)
    (h : (c.call calls op).out = .ret r) :
    c.run calls (op :: ops)
      = ((c.call calls op).pool.run (c.call calls op).calls ops).map fun rs => r :: rs := by
  simp only [channelPool.run, h]

/-- A run of admitted `Put`s appends the values to the channel in the order of
the calls; the calls that follow see that channel. -/
theorem run_puts (cap : Nat) (factory : Option Factory) (calls : Nat) (ops : List Call) :
    ∀ (xs buf : List GenericConn), (∀ x ∈ xs, x ≠ none) → buf.length + xs.length ≤ cap →
      channelPool.run ⟨some ⟨cap, buf, false⟩, factory⟩ calls (xs.map Call.Put ++ ops)
        = (channelPool.run ⟨some ⟨cap, buf ++ xs, false⟩, factory⟩ calls ops).map
            fun rs => xs.map (fun _ => Reply.Put none) ++ rs := by
  intro xs
  induction xs with
  | nil =>
    intro buf _ _
    rw [List.append_nil, List.map_nil, List.nil_append]
    rcases h : channelPool.run ⟨some ⟨cap, buf, false⟩, factory⟩ calls ops with ⟨out, pool, k⟩
    cases out <;> rfl
  | cons x xs ih =>
    intro buf hxs hroom
    have hx : x ≠ none := hxs x (List.mem_cons_self x xs)
    have hlt : buf.length < cap := by simp only [List.length_cons] at hroom; omega
    have hput := Put_room ⟨some ⟨cap, buf, false⟩, factory⟩ ⟨cap, buf, false⟩ x calls rfl rfl hx hlt
    have hcall : channelPool.call ⟨some ⟨cap, buf, false⟩, factory⟩ calls (.Put x)
        = { out := .ret (.Put none), pool := ⟨some ⟨cap, buf ++ [x], false⟩, factory⟩,
            calls := calls } := by
      simp only [channelPool.call, hput, Step.map]
    have hih := ih (buf ++ [x]) (fun y hy => hxs y (List.mem_cons_of_mem x hy))
      (by simp at hroom ⊢; omega)
    rw [List.append_assoc, List.singleton_append] at hih
    rw [List.map_cons, List.cons_append, run_cons_ret _ _ _ _ (.Put none) (by rw [hcall]), hcall]
    simp only
    rw [hih, Step.map_map]
    rfl

/-- As many `Get`s as there are idle resources return them from the front to
the back and leave the channel empty. -/
theorem run_gets (cap : Nat) (closed : Bool) (factory : Option Factory) (calls : Nat) :
    ∀ (buf : List GenericConn), (∀ x ∈ buf, x ≠ none) →
      channelPool.run ⟨some ⟨cap, buf, closed⟩, factory⟩ calls (List.replicate buf.length Call.Get)
        = { out := .ret (buf.map fun r => Reply.Get r none),
            pool := ⟨some ⟨cap, [], closed⟩, factory⟩, calls := calls } := by
  intro buf
  induction buf with
  | nil => intro _; rfl
  | cons r rest ih =>
    intro hbuf
    have hr : r ≠ none := hbuf r (List.mem_cons_self r rest)
    have hget := Get_cons ⟨some ⟨cap, r :: rest, closed⟩, factory⟩ ⟨cap, r :: rest, closed⟩ r rest
      calls rfl rfl hr
    have hcall : channelPool.call ⟨some ⟨cap, r :: rest, closed⟩, factory⟩ calls .Get
        = { out := .ret (.Get r none), pool := ⟨some ⟨cap, rest, closed⟩, factory⟩,
            calls := calls } := by
      simp only [channelPool.call, hget, Step.map]
    rw [List.length_cons, List.replicate_succ, run_cons_ret _ _ _ _ (.Get r none) (by rw [hcall]),
      hcall]
    simp only
    rw [ih (fun y hy => hbuf y (List.mem_cons_of_mem r hy))]
    rfl

/-- C20: idle storage is a FIFO queue.  On an open pool whose idle resources
are `buf` (front first): `Get` returns the front resource and leaves the rest;
an admitted `Put` appends at the back; after `Put`s of the resources `xs` that
fit, as many `Get`s as there are idle resources return first `buf` and then
`xs`, each in the order in which it went in; and from a pool that
`NewChannelPool` returned, the resources it inserted come out in the order of
the factory invocations. -/
theorem idle_storage_is_fifo (cap : Nat) (factory : Option Factory) (calls : Nat)
    (buf xs : List GenericConn) (hbuf : ∀ x ∈ buf, x ≠ none) (hxs : ∀ x ∈ xs, x ≠ none)
    (hroom : buf.length + xs.length ≤ cap) :
    (∀ r rest, buf = r :: rest →
        (channelPool.Get ⟨some ⟨cap, buf, false⟩, factory⟩ calls).out = .ret (r, none)
          ∧ (channelPool.Get ⟨some ⟨cap, buf, false⟩, factory⟩ calls).pool.conns
              = some ⟨cap, rest, false⟩)
      ∧ (∀ r, r ≠ none → buf.length < cap →
          (channelPool.Put ⟨some ⟨cap, buf, false⟩, factory⟩ r calls).pool.conns
            = some ⟨cap, buf ++ [r], false⟩)
      ∧ channelPool.run ⟨some ⟨cap, buf, false⟩, factory⟩ calls
            (xs.map Call.Put ++ List.replicate (buf.length + xs.length) Call.Get)
          = { out := .ret (xs.map (fun _ => Reply.Put none)
                ++ (buf ++ xs).map fun r => Reply.Get r none),
              pool := ⟨some ⟨cap, [], false⟩, factory⟩, calls := calls }
      ∧ (∀ (n : Nat) (f : Factory) (p : channelPool),
          (NewChannelPool n (some f) calls).out = .ret (some p, none) →
          (∀ k, k < n → (f (calls + k)).2 = none) →
          (∀ k, k < n → (f (calls + k)).1 ≠ none) →
          (p.run (calls + n) (List.replicate n Call.Get)).out
            = .ret ((produced f calls n).map fun r => Reply.Get r none)) := by
  refine ⟨?_, ?_, ?_, ?_⟩
  · intro r rest hb
    subst hb
    rw [Get_cons _ ⟨cap, r :: rest, false⟩ r rest calls rfl rfl (hbuf r (List.mem_cons_self r rest))]
    exact ⟨rfl, rfl⟩
  · intro r hr hlt
    rw [Put_room _ ⟨cap, buf, false⟩ r calls rfl rfl hr hlt]
  · rw [run_puts cap factory calls _ xs buf hxs hroom]
    have hall : ∀ x ∈ buf ++ xs, x ≠ none := by
      intro x hx
      rcases List.mem_append.mp hx with h | h
      · exact hbuf x h
      · exact hxs x h
    have hgets := run_gets cap false factory calls (buf ++ xs) hall
    rw [List.length_append] at hgets
    rw [hgets]
    rfl
  · intro n f p hnew hok hres
    have hsize : elemSize * n ≤ maxAlloc - hchanSize := by
      simpa using (NewChannelPool_ret_size n (some f) calls _ hnew).2
    rw [NewChannelPool_ok n f calls hsize hok] at hnew
    simp only [Outcome.ret.injEq, Prod.mk.injEq, Option.some.injEq, and_true] at hnew
    subst hnew
    have hgets := run_gets n false (some f) (calls + n) (produced f calls n)
      (produced_ne_none f calls n hres)
    rw [produced_length] at hgets
    rw [hgets]

/-- C20, on a pool of capacity 4 that holds the resources 0 and 1: after `Put`s
of 7 and then 5, four `Get`s return 0, 1, 7, 5; and the three resources that
`NewChannelPool` inserted come out in the order of the factory invocations. -/
theorem idle_storage_is_fifo_witness :
    channelPool.run ⟨some ⟨4, [some 0, some 1], false⟩, some Test.factory⟩ 4
          (([some 7, some 5] : List GenericConn).map Call.Put
            ++ List.replicate (([some 0, some 1] : List GenericConn).length
                + ([some 7, some 5] : List GenericConn).length) Call.Get)
        = { out := .ret (([some 7, some 5] : List GenericConn).map (fun _ => Reply.Put none)
              ++ ([some 0, some 1] ++ [some 7, some 5]).map fun r => Reply.Get r none),
            pool := ⟨some ⟨4, [], false⟩, some Test.factory⟩, calls := 4 }
      ∧ (channelPool.run ⟨some ⟨3, [some 4, some 5, some 6], false⟩, some Test.factory⟩ (4 + 3)
            (List.replicate 3 Call.Get)).out
          = .ret ((produced Test.factory 4 3).map fun r => Reply.Get r none) :=
  ⟨(idle_storage_is_fifo 4 (some Test.factory) 4 [some 0, some 1] [some 7, some 5]
      (by decide) (by decide) (by decide)).2.2.1,
    (idle_storage_is_fifo 4 (some Test.factory) 4 [some 0, some 1] [some 7, some 5]
      (by decide) (by decide) (by decide)).2.2.2 3 Test.factory
      ⟨some ⟨3, [some 4, some 5, some 6], false⟩, some Test.factory⟩ rfl (fun _ _ => rfl)
      (fun _ _ => by simp [Test.factory])⟩

end Pool
